import Mathlib

/-!
Verification of the extension-activation engine.

Shallow embedding of `src/shared/src/api/client/services/extensionsService.ts`
(the `ExtensionsService` class: `activeExtensions`, the helper
`extensionsWithMatchedActivationEvent`, and the memoized script-URL
resolver), together with theorems settling the specification claims about
the activation pipeline.

The reactive pipeline
`combineLatest(model, enabledExtensions) |> tap |> map |> distinctUntilChanged |> switchMap |> map`
is embedded as a fold over the list of delivered input pairs: each element
of the input list is one `(model, enabledExtensions)` combination delivered
to the pipeline, processed synchronously in arrival order.
-/

namespace ExtensionsService

/-- A visible text document; only its `languageId` matters to activation. -/
structure TextDocumentItem where
  languageId : String
deriving DecidableEq, Repr

/-- The manifest fields that the activation engine reads: the
`activationEvents` list (which may be absent, i.e. `undefined` in the
TypeScript source) and the script entry-point reference used by
`getScriptURLFromExtensionManifest`. -/
structure ExtensionManifest where
  activationEvents : Option (List String)
  scriptURL : String
deriving DecidableEq, Repr

/-- The `manifest` field of a `ConfiguredExtension`: it is either absent
(`null`/`undefined`), an error placeholder recording a failed catalog fetch
(`isErrorLike` returns true on it), or a real manifest. -/
inductive ManifestField where
  | missing
  | errorLike (message : String)
  | manifest (m : ExtensionManifest)
deriving DecidableEq, Repr

/-- A configured extension descriptor: unique id plus manifest field. -/
structure ConfiguredExtension where
  id : String
  manifest : ManifestField
deriving DecidableEq, Repr

/-- The slice of `Model` the engine consumes: `visibleTextDocuments`, which
the source guards against being `null`/`undefined`. -/
structure Model where
  visibleTextDocuments : Option (List TextDocumentItem)
deriving DecidableEq, Repr

/-- The information about an extension necessary to execute and activate it
(`ExecutableExtension` in the source): id and resolved script URL. -/
structure ExecutableExtension where
  id : String
  scriptURL : String
deriving DecidableEq, Repr

/-- Computation of `visibleTextDocumentLanguages` (source lines 128-130):
the `languageId` of each visible document, or the empty list when
`visibleTextDocuments` is `null`/`undefined`. -/
def visibleLanguages (model : Model) : List String :=
  match model.visibleTextDocuments with
  | some docs => docs.map (fun d => TextDocumentItem.languageId d)
  | none => []

/-- Per-extension body of the filter in
`extensionsWithMatchedActivationEvent` (source lines 117-133), minus the
surrounding `try`/`catch`: missing manifest, error-like manifest and absent
`activationEvents` are excluded; otherwise the extension matches iff some
activation event is the wildcard `"*"` or is `onLanguage:<l>` for the
`languageId` `l` of some visible document. Note that in the source
`!x.manifest.activationEvents` is false for an empty array (an empty array
is truthy in JavaScript), so an empty list reaches the `some` call, which
then returns false. -/
def matchedActivationEvent (x : ConfiguredExtension) (model : Model) : Bool :=
  match x.manifest with
  | .missing => false
  | .errorLike _ => false
  | .manifest m =>
    match m.activationEvents with
    | none => false
    | some activationEvents =>
      activationEvents.any fun e =>
        e == "*" || (visibleLanguages model).any fun l => e == "onLanguage:" ++ l

/-- Source function `extensionsWithMatchedActivationEvent` (lines 112-139):
the enabled extensions whose activation events match the current model. -/
def extensionsWithMatchedActivationEvent (enabledExtensions : List ConfiguredExtension)
    (model : Model) : List ConfiguredExtension :=
  enabledExtensions.filter fun x => matchedActivationEvent x model

/-- Variant of `extensionsWithMatchedActivationEvent` exposing the
`try`/`catch` of the source (lines 117-137): the whole per-extension body
sits inside a `try`, and a thrown exception makes the callback return
`false` for that extension only. `thrown x = true` models "evaluating `x`'s
predicates throws on this cycle". -/
def extensionsWithMatchedActivationEventT (thrown : ConfiguredExtension → Bool)
    (enabledExtensions : List ConfiguredExtension) (model : Model) : List ConfiguredExtension :=
  enabledExtensions.filter fun x => if thrown x then false else matchedActivationEvent x model

/-- Test for the manifest shapes that the spec says can never activate:
missing manifest, error-placeholder manifest, absent `activationEvents`, or
empty `activationEvents`. -/
def neverActivates (x : ConfiguredExtension) : Bool :=
  match x.manifest with
  | .missing => true
  | .errorLike _ => true
  | .manifest m =>
    match m.activationEvents with
    | none => true
    | some evs => evs.isEmpty

/-- The `tap` stage of `activeExtensions` (source lines 71-78): run the
activation filter on the current pair and append each matched extension's
id to `activatedExtensionIDs` unless it is already present. -/
def stepActivatedIDs (activatedExtensionIDs : List String) (model : Model)
    (enabledExtensions : List ConfiguredExtension) : List String :=
  (extensionsWithMatchedActivationEvent enabledExtensions model).foldl
    (fun ids x => if ids.contains x.id then ids else ids ++ [x.id]) activatedExtensionIDs

/-- The `map` stage of `activeExtensions` (source line 79): the enabled
extensions whose id is in `activatedExtensionIDs`. -/
def filterActivated (activatedExtensionIDs : List String)
    (extensions : List ConfiguredExtension) : List ConfiguredExtension :=
  extensions.filter fun x => activatedExtensionIDs.contains x.id

/-- The state of `activatedExtensionIDs` after delivering a whole sequence
of `(model, enabledExtensions)` pairs, starting from `ids`. -/
def finalIds (ids : List String) (inputs : List (Model × List ConfiguredExtension)) :
    List String :=
  inputs.foldl (fun a p => stepActivatedIDs a p.1 p.2) ids

/-- The per-cycle value computed by the `map` stage (source line 79) for
each delivered input pair, in order: on each cycle the id set is updated
first (`tap` runs before `map` on the shared mutable array), then the
enabled list is filtered by the updated ids. -/
def cycleOutputs (ids : List String) :
    List (Model × List ConfiguredExtension) → List (List ConfiguredExtension)
  | [] => []
  | (model, enabled) :: rest =>
    let ids' := stepActivatedIDs ids model enabled
    filterActivated ids' enabled :: cycleOutputs ids' rest

/-- Stage `distinctUntilChanged((a, b) => isEqual(a, b))` (source line 80) applied
to the per-cycle values: a value deep-equal to the previously emitted one is
suppressed. `prev` is the previously emitted value, if any. -/
def distinctUntilChangedFrom (prev : Option (List ConfiguredExtension)) :
    List (List ConfiguredExtension) → List (List ConfiguredExtension)
  | [] => []
  | a :: rest =>
    if prev = some a then distinctUntilChangedFrom prev rest
    else a :: distinctUntilChangedFrom (some a) rest

/-- The `switchMap`/`Promise.all`/final `map` stages of `activeExtensions`
(source lines 81-98) for one emitted batch: each extension's script URL is
resolved (`resolve` is the memoized resolver viewed as a function from URL
to `string | null`; `getURL` is `getScriptURLFromExtensionManifest`);
extensions whose URL resolved to null are dropped. -/
def resolveBatch (resolve : String → Option String) (getURL : ConfiguredExtension → String)
    (extensions : List ConfiguredExtension) : List ExecutableExtension :=
  extensions.filterMap fun x =>
    match resolve (getURL x) with
    | none => none
    | some scriptURL => some { id := x.id, scriptURL := scriptURL }

/-- The emitted pre-resolution batches of `activeExtensions` for a whole
input sequence: per-cycle values, deduplicated by `distinctUntilChanged`. -/
def emittedBatches (ids : List String) (inputs : List (Model × List ConfiguredExtension)) :
    List (List ConfiguredExtension) :=
  distinctUntilChangedFrom none (cycleOutputs ids inputs)

/-- The full `activeExtensions` pipeline over a whole input sequence: each
emitted batch is resolved to its `ExecutableExtension` list. -/
def runPipeline (resolve : String → Option String) (getURL : ConfiguredExtension → String)
    (inputs : List (Model × List ConfiguredExtension)) : List (List ExecutableExtension) :=
  (emittedBatches [] inputs).map (resolveBatch resolve getURL)

/-- Modelled from the spec: `getScriptURLFromExtensionManifest` from
`shared/src/extensions/extension` is not among the sampled sources; per the
spec's glossary the manifest includes "a script entry-point reference", so
the function reads the script URL out of the extension's manifest. For an
absent or error-placeholder manifest there is no URL; the empty string
stands for that degenerate case (the pipeline only applies the function to
extensions that were activated, which requires a real manifest). -/
def getScriptURLFromExtensionManifest (x : ConfiguredExtension) : String :=
  match x.manifest with
  | .manifest m => m.scriptURL
  | _ => ""

/-- The function memoized by `memoizedGetScriptURLForExtension` (source
lines 102-109): call `platformContext.getScriptURLForExtension` on the URL
and convert a thrown/rejected outcome to `null` (the `.catch` on line 104).
`raw` models the platform resolver, which may either return a value
(`Except.ok`, itself `string | null`) or throw (`Except.error`). -/
def wrapCatch (raw : String → Except String (Option String)) (url : String) : Option String :=
  match raw url with
  | .ok v => v
  | .error _ => none

/-- Association-list lookup in the URL cache, keyed by the URL string (the
`toKey` argument on source line 108 is the identity). -/
def cacheLookup (cache : List (String × Option String)) (url : String) :
    Option (Option String) :=
  match cache.find? (fun p => p.1 == url) with
  | none => none
  | some p => some p.2

/-- Modelled from the spec: `memoizeAsync` from `shared/src/api/util` is not
among the sampled sources; per the spec (section 4.4 and data-model
invariant 3) it keeps an append-only cache keyed by URL, invokes the
underlying function only on a cache miss, and stores the outcome
permanently, whether success or null. `memoRun` processes a sequence of URL
requests (the concatenation of all batches' requests over the engine's
lifetime) against the cache, returning the responses in order, the final
cache, and the list of URLs on which the underlying function was actually
invoked, in order. -/
def memoRun (f : String → Option String) :
    List (String × Option String) → List String →
      List (Option String) × List (String × Option String) × List String
  | cache, [] => ([], cache, [])
  | cache, url :: rest =>
    match cacheLookup cache url with
    | some v =>
      let r := memoRun f cache rest
      (v :: r.1, r.2.1, r.2.2)
    | none =>
      let v := f url
      let r := memoRun f ((url, v) :: cache) rest
      (v :: r.1, r.2.1, url :: r.2.2)

/-- Concrete sample extension used in witness theorems: activates on Go
documents. -/
def extGo : ConfiguredExtension :=
  { id := "a", manifest := .manifest { activationEvents := some ["onLanguage:go"], scriptURL := "ua" } }

/-- Concrete sample extension used in witness theorems: activates on Python
documents. -/
def extPy : ConfiguredExtension :=
  { id := "b", manifest := .manifest { activationEvents := some ["onLanguage:python"], scriptURL := "ub" } }

/-- Concrete sample extension used in witness theorems: missing manifest. -/
def extMissing : ConfiguredExtension := { id := "c", manifest := .missing }

/-- Concrete sample model used in witness theorems: one visible Go document. -/
def modelGo : Model := { visibleTextDocuments := some [{ languageId := "go" }] }

/-- Concrete sample model used in witness theorems: no visible documents. -/
def modelNone : Model := { visibleTextDocuments := none }

/-! Helper lemmas about the activation step and the emission pipeline. -/

lemma mem_matched_iff {en : List ConfiguredExtension} {model : Model}
    {x : ConfiguredExtension} :
    x ∈ extensionsWithMatchedActivationEvent en model ↔
      x ∈ en ∧ matchedActivationEvent x model = true :=
  List.mem_filter

lemma mem_filterActivated_iff {ids : List String} {l : List ConfiguredExtension}
    {x : ConfiguredExtension} :
    x ∈ filterActivated ids l ↔ x ∈ l ∧ x.id ∈ ids := by
  simp [filterActivated]

lemma subset_foldl_push (l : List ConfiguredExtension) (ids : List String) :
    ids ⊆ l.foldl (fun a x => if a.contains x.id then a else a ++ [x.id]) ids := by
  induction l generalizing ids with
  | nil => exact fun _ h => h
  | cons x l ih =>
    intro i hi
    rw [List.foldl_cons]
    refine ih _ ?_
    by_cases hc : ids.contains x.id = true
    · rw [if_pos hc]
      exact hi
    · rw [if_neg hc]
      exact List.mem_append_left _ hi

lemma id_mem_foldl_push {l : List ConfiguredExtension} {x : ConfiguredExtension}
    (hx : x ∈ l) (ids : List String) :
    x.id ∈ l.foldl (fun a y => if a.contains y.id then a else a ++ [y.id]) ids := by
  induction l generalizing ids with
  | nil => cases hx
  | cons y l ih =>
    rw [List.foldl_cons]
    rcases List.mem_cons.mp hx with heq | hx
    · subst heq
      apply subset_foldl_push
      by_cases hc : ids.contains x.id = true
      · rw [if_pos hc]
        exact List.elem_iff.mp hc
      · rw [if_neg hc]
        exact List.mem_append_right _ (List.mem_singleton.mpr rfl)
    · exact ih hx _

lemma mem_foldl_push_cases {l : List ConfiguredExtension} {ids : List String} {j : String}
    (hj : j ∈ l.foldl (fun a y => if a.contains y.id then a else a ++ [y.id]) ids) :
    j ∈ ids ∨ ∃ x ∈ l, x.id = j := by
  induction l generalizing ids with
  | nil => exact Or.inl hj
  | cons y l ih =>
    rw [List.foldl_cons] at hj
    rcases ih hj with h | ⟨x, hx, rfl⟩
    · by_cases hc : ids.contains y.id = true
      · rw [if_pos hc] at h
        exact Or.inl h
      · rw [if_neg hc] at h
        rcases List.mem_append.mp h with h | h
        · exact Or.inl h
        · exact Or.inr ⟨y, List.mem_cons_self _ _, (List.mem_singleton.mp h).symm⟩
    · exact Or.inr ⟨x, List.mem_cons_of_mem _ hx, rfl⟩

lemma subset_stepActivatedIDs (ids : List String) (model : Model)
    (enabled : List ConfiguredExtension) : ids ⊆ stepActivatedIDs ids model enabled :=
  subset_foldl_push _ _

lemma matched_id_mem_step {enabled : List ConfiguredExtension} {model : Model}
    {e : ConfiguredExtension} (he : e ∈ extensionsWithMatchedActivationEvent enabled model)
    (ids : List String) : e.id ∈ stepActivatedIDs ids model enabled :=
  id_mem_foldl_push he ids

lemma mem_step_cases {ids : List String} {model : Model}
    {enabled : List ConfiguredExtension} {j : String}
    (hj : j ∈ stepActivatedIDs ids model enabled) :
    j ∈ ids ∨ ∃ x ∈ extensionsWithMatchedActivationEvent enabled model, x.id = j :=
  mem_foldl_push_cases hj

lemma subset_finalIds (ids : List String) (inputs : List (Model × List ConfiguredExtension)) :
    ids ⊆ finalIds ids inputs := by
  induction inputs generalizing ids with
  | nil => exact fun _ h => h
  | cons p rest ih =>
    intro i hi
    show i ∈ finalIds (stepActivatedIDs ids p.1 p.2) rest
    exact ih _ (subset_stepActivatedIDs _ _ _ hi)

lemma mem_of_mem_duc {prev : Option (List ConfiguredExtension)}
    {ls : List (List ConfiguredExtension)} {o : List ConfiguredExtension}
    (h : o ∈ distinctUntilChangedFrom prev ls) : o ∈ ls := by
  induction ls generalizing prev with
  | nil => cases h
  | cons a rest ih =>
    rw [distinctUntilChangedFrom] at h
    by_cases hp : prev = some a
    · rw [if_pos hp] at h
      exact List.mem_cons_of_mem _ (ih h)
    · rw [if_neg hp] at h
      rcases List.mem_cons.mp h with heq | h
      · rw [heq]
        exact List.mem_cons_self _ _
      · exact List.mem_cons_of_mem _ (ih h)

lemma mem_cycleOutputs {ids : List String} {inputs : List (Model × List ConfiguredExtension)}
    {o : List ConfiguredExtension} (h : o ∈ cycleOutputs ids inputs) :
    ∃ p ∈ inputs, ∃ a, o = filterActivated a p.2 := by
  induction inputs generalizing ids with
  | nil => cases h
  | cons p rest ih =>
    rw [cycleOutputs] at h
    rcases List.mem_cons.mp h with heq | h
    · exact ⟨p, List.mem_cons_self _ _, stepActivatedIDs ids p.1 p.2, heq⟩
    · rcases ih h with ⟨q, hq, a, rfl⟩
      exact ⟨q, List.mem_cons_of_mem _ hq, a, rfl⟩

lemma duc_head_ne_and_chain (prev : Option (List ConfiguredExtension))
    (ls : List (List ConfiguredExtension)) :
    (∀ p x, prev = some p → (distinctUntilChangedFrom prev ls).head? = some x → x ≠ p) ∧
      List.Chain' (fun a b => a ≠ b) (distinctUntilChangedFrom prev ls) := by
  induction ls generalizing prev with
  | nil =>
    constructor
    · intro p x _ h
      rw [distinctUntilChangedFrom] at h
      simp at h
    · rw [distinctUntilChangedFrom]
      exact List.chain'_nil
  | cons a rest ih =>
    rw [distinctUntilChangedFrom]
    by_cases hp : prev = some a
    · rw [if_pos hp]
      exact ih prev
    · rw [if_neg hp]
      constructor
      · intro p x hps hx
        have hxa : a = x := by simpa using hx
        subst hxa
        intro hpa
        exact hp (by rw [hps, hpa])
      · rw [List.chain'_cons']
        constructor
        · intro y hy
          have := (ih (some a)).1 a y rfl (Option.mem_def.mp hy)
          exact fun hay => this hay.symm
        · exact (ih (some a)).2

/-- C2: the activated-id set only grows: every id present before an input
step of the activation engine is still present afterwards; and activation
is sticky: once extension `e` matches the activation filter on a cycle
`(model, enabled)`, then after any sequence `mid` of further cycles, `e`
appears in the engine's computed output of any later cycle
`(model', enabled')` in which it is enabled, even if `model'` no longer
satisfies `e`'s activation predicates. -/
theorem activatedIds_monotone_and_sticky (ids : List String) (model : Model)
    (enabled : List ConfiguredExtension) :
    (∀ i ∈ ids, i ∈ stepActivatedIDs ids model enabled) ∧
      (∀ (mid : List (Model × List ConfiguredExtension)) (model' : Model)
          (enabled' : List ConfiguredExtension) (e : ConfiguredExtension),
        e ∈ extensionsWithMatchedActivationEvent enabled model →
        e ∈ enabled' →
        e ∈ filterActivated
              (stepActivatedIDs
                (finalIds (stepActivatedIDs ids model enabled) mid) model' enabled')
              enabled') := by
  constructor
  · exact fun i hi => subset_stepActivatedIDs _ _ _ hi
  · intro mid model' enabled' e hmatch hen
    refine mem_filterActivated_iff.mpr ⟨hen, ?_⟩
    have h1 : e.id ∈ stepActivatedIDs ids model enabled := matched_id_mem_step hmatch ids
    have h2 : e.id ∈ finalIds (stepActivatedIDs ids model enabled) mid :=
      subset_finalIds _ _ h1
    exact subset_stepActivatedIDs _ _ _ h2

/-- C6: once `e.id` is in the activated set `A`, then after any further
input sequence `mid` (during which `e` may be disabled and absent from
output), the first cycle `(model', enabled')` in which `e` is enabled again
has `e` in its computed output, with no assumption that `e`'s activation
predicates match `model'`. -/
theorem reenabled_extension_reappears (A : List String)
    (mid : List (Model × List ConfiguredExtension)) (model' : Model)
    (enabled' : List ConfiguredExtension) (e : ConfiguredExtension)
    (hA : e.id ∈ A) (hen : e ∈ enabled') :
    e ∈ filterActivated (stepActivatedIDs (finalIds A mid) model' enabled') enabled' := by
  refine mem_filterActivated_iff.mpr ⟨hen, ?_⟩
  exact subset_stepActivatedIDs _ _ _ (subset_finalIds _ _ hA)

/-- Witness for the C6 theorem: extension `a`, already activated, sits out
one cycle in which only `b` is enabled, and reappears on the next cycle
with no visible documents. -/
theorem reenabled_extension_reappears_witness :
    extGo.id ∈ ["a"] ∧ extGo ∈ [extGo, extPy] ∧
      extGo ∈ filterActivated
        (stepActivatedIDs (finalIds ["a"] [(modelGo, [extPy])]) modelNone [extGo, extPy])
        [extGo, extPy] :=
  ⟨by decide, by decide,
    reenabled_extension_reappears ["a"] [(modelGo, [extPy])] modelNone [extGo, extPy] extGo
      (by decide) (by decide)⟩

/-- C8: the engine never emits two consecutive pre-resolution batches that
are deep-equal: `distinctUntilChanged` suppresses any batch equal to the
previously emitted one, so consecutive emitted batches always differ. -/
theorem no_consecutive_equal_emissions (inputs : List (Model × List ConfiguredExtension)) :
    List.Chain' (fun a b => a ≠ b) (emittedBatches [] inputs) :=
  (duc_head_ne_and_chain none (cycleOutputs [] inputs)).2

/-- C9: determinism: two runs over the identical input sequence whose
resolvers agree on every URL produce identical output sequences. -/
theorem pipeline_deterministic (r1 r2 : String → Option String)
    (getURL : ConfiguredExtension → String)
    (inputs : List (Model × List ConfiguredExtension))
    (h : ∀ u, r1 u = r2 u) :
    runPipeline r1 getURL inputs = runPipeline r2 getURL inputs := by
  rw [funext h]

/-- Witness for the C9 theorem at a concrete input sequence and resolver. -/
theorem pipeline_deterministic_witness :
    runPipeline (fun _ => some "s") getScriptURLFromExtensionManifest [(modelGo, [extGo])]
      = runPipeline (fun _ => some "s") getScriptURLFromExtensionManifest
          [(modelGo, [extGo])] :=
  pipeline_deterministic (fun _ => some "s") (fun _ => some "s")
    getScriptURLFromExtensionManifest [(modelGo, [extGo])] (fun _ => rfl)

/-- C10: the computed output of every cycle is an order-preserving sublist
of that cycle's enabled-extensions input (so the output is ordered by the
enabled list, not by the insertion order of `activatedExtensionIDs`), each
entry occurs in it no more often than in the enabled list, and every
emitted batch is a sublist of the enabled list of some input cycle. -/
theorem output_sublist_of_enabled (A : List String) (enabled : List ConfiguredExtension) :
    (filterActivated A enabled).Sublist enabled ∧
      (∀ x, (filterActivated A enabled).count x ≤ enabled.count x) ∧
      (∀ (ids : List String) (inputs : List (Model × List ConfiguredExtension))
          (o : List ConfiguredExtension), o ∈ emittedBatches ids inputs →
        ∃ p ∈ inputs, o.Sublist p.2) := by
  refine ⟨List.filter_sublist _, fun x => (List.filter_sublist _).count_le x, ?_⟩
  intro ids inputs o ho
  rcases mem_cycleOutputs (mem_of_mem_duc ho) with ⟨p, hp, a, rfl⟩
  exact ⟨p, hp, List.filter_sublist _⟩

/-- C1: an extension `e` of the enabled list (whose ids are distinct) has
an entry in a resolved output batch iff `e.id` is in the activated set,
`e` is enabled, and its script URL resolved to a non-null string; moreover
every output entry's id is the id of some enabled extension. -/
theorem output_membership_iff (A : List String) (enabled : List ConfiguredExtension)
    (resolve : String → Option String) (getURL : ConfiguredExtension → String)
    (e : ConfiguredExtension) (he : e ∈ enabled)
    (hnodup : (enabled.map ConfiguredExtension.id).Nodup) :
    ((∃ u, ExecutableExtension.mk e.id u ∈
          resolveBatch resolve getURL (filterActivated A enabled))
        ↔ e.id ∈ A ∧ resolve (getURL e) ≠ none) ∧
      (∀ entry ∈ resolveBatch resolve getURL (filterActivated A enabled),
        ∃ x ∈ enabled, x.id = ExecutableExtension.id entry) := by
  constructor
  · constructor
    · rintro ⟨u, hu⟩
      rcases List.mem_filterMap.mp hu with ⟨x, hx, hfx⟩
      rcases mem_filterActivated_iff.mp hx with ⟨hxen, hxid⟩
      cases hres : resolve (getURL x) with
      | none =>
        rw [hres] at hfx
        cases hfx
      | some s =>
        rw [hres] at hfx
        injection hfx with hfx
        have hid : x.id = e.id := congrArg ExecutableExtension.id hfx
        have hxe : x = e := List.inj_on_of_nodup_map hnodup hxen he hid
        subst hxe
        refine ⟨hxid, ?_⟩
        rw [hres]
        exact fun hc => by cases hc
    · rintro ⟨hA, hres⟩
      rcases Option.ne_none_iff_exists'.mp hres with ⟨u, hu⟩
      refine ⟨u, List.mem_filterMap.mpr ⟨e, mem_filterActivated_iff.mpr ⟨he, hA⟩, ?_⟩⟩
      rw [hu]
  · intro entry hentry
    rcases List.mem_filterMap.mp hentry with ⟨x, hx, hfx⟩
    rcases mem_filterActivated_iff.mp hx with ⟨hxen, _⟩
    cases hres : resolve (getURL x) with
    | none =>
      rw [hres] at hfx
      cases hfx
    | some s =>
      rw [hres] at hfx
      injection hfx with hfx
      exact ⟨x, hxen, congrArg ExecutableExtension.id hfx⟩

/-- Witness for the C1 theorem: activated set `["a"]`, enabled list
`[extGo, extPy]`, a resolver that always succeeds. -/
theorem output_membership_iff_witness :
    extGo ∈ [extGo, extPy] ∧ ([extGo, extPy].map ConfiguredExtension.id).Nodup ∧
      (((∃ u, ExecutableExtension.mk extGo.id u ∈
            resolveBatch (fun _ => some "s") getScriptURLFromExtensionManifest
              (filterActivated ["a"] [extGo, extPy]))
          ↔ extGo.id ∈ ["a"] ∧
              (fun _ => (some "s" : Option String))
                  (getScriptURLFromExtensionManifest extGo) ≠ none) ∧
        (∀ entry ∈ resolveBatch (fun _ => some "s") getScriptURLFromExtensionManifest
            (filterActivated ["a"] [extGo, extPy]),
          ∃ x ∈ [extGo, extPy], x.id = ExecutableExtension.id entry)) :=
  ⟨by decide, by decide,
    output_membership_iff ["a"] [extGo, extPy] (fun _ => some "s")
      getScriptURLFromExtensionManifest extGo (by decide) (by decide)⟩

lemma matched_eq_false_of_neverActivates {x : ConfiguredExtension}
    (h : neverActivates x = true) (model : Model) :
    matchedActivationEvent x model = false := by
  rcases x with ⟨xid, xman⟩
  cases xman with
  | missing => rfl
  | errorLike msg => rfl
  | manifest m =>
    rcases m with ⟨oevs, url⟩
    cases oevs with
    | none => rfl
    | some evs =>
      have hevs : evs = [] := List.isEmpty_iff.mp (by simpa [neverActivates] using h)
      subst hevs
      rfl

lemma id_not_in_step_of_neverActivates {ids : List String} {model : Model}
    {enabled : List ConfiguredExtension} {i : String}
    (hbad : ∀ x ∈ enabled, x.id = i → neverActivates x = true)
    (hi : i ∉ ids) : i ∉ stepActivatedIDs ids model enabled := by
  intro hmem
  rcases mem_step_cases hmem with h | ⟨x, hx, rfl⟩
  · exact hi h
  · rcases mem_matched_iff.mp hx with ⟨hxen, hxmatch⟩
    have hfalse := matched_eq_false_of_neverActivates (hbad x hxen rfl) model
    simp [hfalse] at hxmatch

lemma never_activates_run {inputs : List (Model × List ConfiguredExtension)} {i : String}
    (hbad : ∀ p ∈ inputs, ∀ x ∈ p.2, x.id = i → neverActivates x = true) :
    ∀ ids, i ∉ ids →
      i ∉ finalIds ids inputs ∧
        ∀ o ∈ cycleOutputs ids inputs, ∀ x ∈ o, ConfiguredExtension.id x ≠ i := by
  induction inputs with
  | nil =>
    intro ids hi
    exact ⟨hi, fun o ho => absurd ho (List.not_mem_nil o)⟩
  | cons p rest ih =>
    rcases p with ⟨pm, pe⟩
    intro ids hi
    have hstep : i ∉ stepActivatedIDs ids pm pe :=
      id_not_in_step_of_neverActivates (hbad _ (List.mem_cons_self _ _)) hi
    have hrest := ih (fun q hq => hbad q (List.mem_cons_of_mem _ hq)) _ hstep
    constructor
    · exact hrest.1
    · intro o ho x hx
      rw [cycleOutputs] at ho
      rcases List.mem_cons.mp ho with heq | ho
      · subst heq
        rcases mem_filterActivated_iff.mp hx with ⟨_, hxid⟩
        intro hxi
        exact hstep (hxi ▸ hxid)
      · exact hrest.2 o ho x hx

/-- C4: an extension whose manifest is absent, an error placeholder, or has
empty or absent `activationEvents` never matches the activation filter
under any model; and over any input sequence in which every enabled
extension bearing id `i` has such a manifest, `i` is never added to the
activated set and no computed output entry ever has id `i`. -/
theorem never_activates_excluded (ids : List String)
    (inputs : List (Model × List ConfiguredExtension)) (i : String)
    (hbad : ∀ p ∈ inputs, ∀ x ∈ p.2, ConfiguredExtension.id x = i → neverActivates x = true)
    (hi : i ∉ ids) :
    (∀ (model : Model) (en : List ConfiguredExtension) (x : ConfiguredExtension),
        neverActivates x = true → x ∉ extensionsWithMatchedActivationEvent en model) ∧
      i ∉ finalIds ids inputs ∧
      (∀ o ∈ cycleOutputs ids inputs, ∀ x ∈ o, ConfiguredExtension.id x ≠ i) := by
  refine ⟨?_, never_activates_run hbad ids hi⟩
  intro model en x hx hmem
  rcases mem_matched_iff.mp hmem with ⟨_, hmatch⟩
  have hfalse := matched_eq_false_of_neverActivates hx model
  simp [hfalse] at hmatch

/-- Witness for the C4 theorem: a single cycle whose only enabled extension
has a missing manifest. -/
theorem never_activates_excluded_witness :
    (∀ p ∈ [(modelGo, [extMissing])], ∀ x ∈ p.2,
        ConfiguredExtension.id x = "c" → neverActivates x = true) ∧
      ("c" ∉ ([] : List String)) ∧
      ((∀ (model : Model) (en : List ConfiguredExtension) (x : ConfiguredExtension),
          neverActivates x = true → x ∉ extensionsWithMatchedActivationEvent en model) ∧
        "c" ∉ finalIds [] [(modelGo, [extMissing])] ∧
        (∀ o ∈ cycleOutputs [] [(modelGo, [extMissing])], ∀ x ∈ o,
          ConfiguredExtension.id x ≠ "c")) :=
  ⟨by decide, by decide,
    never_activates_excluded [] [(modelGo, [extMissing])] "c" (by decide) (by decide)⟩

/-- C5: for an enabled extension with a real (non-error) manifest and a
present `activationEvents` list, membership in the activation filter holds
iff some activation event equals the wildcard or equals
`onLanguage:<lang>` for the language of some visible document; when there
are no visible document languages only the wildcard can match; and an
extension with `activationEvents = ["*"]` matches under any model. -/
theorem match_condition (enabled : List ConfiguredExtension) (model : Model)
    (e : ConfiguredExtension) (m : ExtensionManifest) (evs : List String)
    (he : e ∈ enabled) (hm : e.manifest = ManifestField.manifest m)
    (hevs : m.activationEvents = some evs) :
    (e ∈ extensionsWithMatchedActivationEvent enabled model ↔
        ∃ ev ∈ evs, ev = "*" ∨ ∃ l ∈ visibleLanguages model, ev = "onLanguage:" ++ l) ∧
      (visibleLanguages model = [] →
        (e ∈ extensionsWithMatchedActivationEvent enabled model ↔ "*" ∈ evs)) ∧
      (evs = ["*"] → e ∈ extensionsWithMatchedActivationEvent enabled model) := by
  have hmem : e ∈ extensionsWithMatchedActivationEvent enabled model ↔
      matchedActivationEvent e model = true :=
    ⟨fun h => (mem_matched_iff.mp h).2, fun h => mem_matched_iff.mpr ⟨he, h⟩⟩
  have hbody : matchedActivationEvent e model =
      evs.any fun ev =>
        ev == "*" || (visibleLanguages model).any fun l => ev == "onLanguage:" ++ l := by
    unfold matchedActivationEvent
    rw [hm]
    simp only [hevs]
  refine ⟨?_, ?_, ?_⟩
  · rw [hmem, hbody]
    simp [List.any_eq_true]
  · intro hlang
    rw [hmem, hbody, hlang]
    simp [List.any_eq_true]
  · intro hstar
    subst hstar
    rw [hmem, hbody]
    simp

/-- Witness for the C5 theorem: the Go extension against a model with one
visible Go document. -/
theorem match_condition_witness :
    extGo ∈ [extGo] ∧
      extGo.manifest
          = ManifestField.manifest
              { activationEvents := some ["onLanguage:go"], scriptURL := "ua" } ∧
      (ExtensionManifest.activationEvents
            { activationEvents := some ["onLanguage:go"], scriptURL := "ua" }
          = some ["onLanguage:go"]) ∧
      ((extGo ∈ extensionsWithMatchedActivationEvent [extGo] modelGo ↔
          ∃ ev ∈ ["onLanguage:go"],
            ev = "*" ∨ ∃ l ∈ visibleLanguages modelGo, ev = "onLanguage:" ++ l) ∧
        (visibleLanguages modelGo = [] →
          (extGo ∈ extensionsWithMatchedActivationEvent [extGo] modelGo ↔
            "*" ∈ ["onLanguage:go"])) ∧
        (["onLanguage:go"] = ["*"] →
          extGo ∈ extensionsWithMatchedActivationEvent [extGo] modelGo)) :=
  ⟨by decide, by decide, by decide,
    match_condition [extGo] modelGo extGo
      { activationEvents := some ["onLanguage:go"], scriptURL := "ua" } ["onLanguage:go"]
      (by decide) (by decide) (by decide)⟩

/-- C7: a per-extension exception in the activation filter is caught and
treated as "no match" for that extension on that cycle only: a throwing
extension is excluded from the filter result, every non-throwing
extension's outcome is exactly that of the plain filter, and a cycle
without throws evaluates the plain filter, so the extension is evaluated
again (and may match) on the next cycle. -/
theorem exception_isolated (thrown : ConfiguredExtension → Bool)
    (enabled : List ConfiguredExtension) (model : Model) (e : ConfiguredExtension) :
    (thrown e = true → e ∉ extensionsWithMatchedActivationEventT thrown enabled model) ∧
      (∀ y ∈ enabled, thrown y = false →
        (y ∈ extensionsWithMatchedActivationEventT thrown enabled model ↔
          y ∈ extensionsWithMatchedActivationEvent enabled model)) ∧
      extensionsWithMatchedActivationEventT (fun _ => false) enabled model =
        extensionsWithMatchedActivationEvent enabled model := by
  refine ⟨?_, ?_, ?_⟩
  · intro ht hmem
    rcases List.mem_filter.mp hmem with ⟨_, hcond⟩
    rw [if_pos ht] at hcond
    cases hcond
  · intro y hy ht
    simp [extensionsWithMatchedActivationEventT, extensionsWithMatchedActivationEvent,
      List.mem_filter, ht]
  · simp [extensionsWithMatchedActivationEventT, extensionsWithMatchedActivationEvent]

/-- Witness for the C7 theorem: evaluation of the Go extension throws while
the Python extension does not. -/
theorem exception_isolated_witness :
    ((fun x => x.id == "a" : ConfiguredExtension → Bool) extGo = true →
        extGo ∉ extensionsWithMatchedActivationEventT
          (fun x => x.id == "a") [extGo, extPy] modelGo) ∧
      (∀ y ∈ [extGo, extPy], (fun x => x.id == "a" : ConfiguredExtension → Bool) y = false →
        (y ∈ extensionsWithMatchedActivationEventT
            (fun x => x.id == "a") [extGo, extPy] modelGo ↔
          y ∈ extensionsWithMatchedActivationEvent [extGo, extPy] modelGo)) ∧
      extensionsWithMatchedActivationEventT (fun _ => false) [extGo, extPy] modelGo =
        extensionsWithMatchedActivationEvent [extGo, extPy] modelGo :=
  exception_isolated (fun x => x.id == "a") [extGo, extPy] modelGo extGo

lemma cacheLookup_eq_none_iff {cache : List (String × Option String)} {u : String} :
    cacheLookup cache u = none ↔ u ∉ cache.map Prod.fst := by
  unfold cacheLookup
  cases hf : cache.find? (fun p => p.1 == u) with
  | none =>
    simp only [hf]
    constructor
    · intro _ hu
      rcases List.mem_map.mp hu with ⟨p, hp, hpu⟩
      have hnp := List.find?_eq_none.mp hf p hp
      rw [hpu] at hnp
      simp at hnp
    · intro _
      trivial
  | some p =>
    simp only [hf]
    constructor
    · intro h
      cases h
    · intro hu
      have hp := List.mem_of_find?_eq_some hf
      have hpu : p.1 = u := by simpa using List.find?_some hf
      exact absurd (List.mem_map.mpr ⟨p, hp, hpu⟩) hu

lemma cacheLookup_correct (f : String → Option String)
    {cache : List (String × Option String)} {u : String} {v : Option String}
    (hinv : ∀ q ∈ cache, q.2 = f q.1)
    (h : cacheLookup cache u = some v) : v = f u := by
  unfold cacheLookup at h
  cases hf : cache.find? (fun p => p.1 == u) with
  | none =>
    rw [hf] at h
    cases h
  | some p =>
    rw [hf] at h
    injection h with h
    have hp := List.mem_of_find?_eq_some hf
    have hpu : p.1 = u := by simpa using List.find?_some hf
    rw [← h, hinv p hp, hpu]

lemma memoRun_responses (f : String → Option String) (rs : List String) :
    ∀ (cache : List (String × Option String)), (∀ q ∈ cache, q.2 = f q.1) →
      (memoRun f cache rs).1 = rs.map f := by
  induction rs with
  | nil =>
    intro cache _
    rfl
  | cons u rest ih =>
    intro cache hinv
    rw [memoRun]
    cases hl : cacheLookup cache u with
    | some v =>
      simp only [hl]
      have hv : v = f u := cacheLookup_correct f hinv hl
      rw [List.map_cons, hv, ih cache hinv]
    | none =>
      simp only [hl]
      have hinv' : ∀ q ∈ (u, f u) :: cache, q.2 = f q.1 := by
        intro q hq
        rcases List.mem_cons.mp hq with heq | hq
        · rw [heq]
        · exact hinv q hq
      rw [List.map_cons, ih _ hinv']

lemma memoRun_inv_count (f : String → Option String) (rs : List String) (u : String) :
    ∀ (cache : List (String × Option String)),
      (u ∈ cache.map Prod.fst → ((memoRun f cache rs).2.2).count u = 0) ∧
        (u ∉ cache.map Prod.fst →
          ((memoRun f cache rs).2.2).count u = if u ∈ rs then 1 else 0) := by
  induction rs with
  | nil =>
    intro cache
    constructor
    · intro _
      rfl
    · intro _
      simp [memoRun]
  | cons w rest ih =>
    intro cache
    constructor
    · intro hu
      rw [memoRun]
      cases hl : cacheLookup cache w with
      | some v =>
        simp only [hl]
        exact (ih cache).1 hu
      | none =>
        simp only [hl]
        have hne : u ≠ w := by
          intro heq
          subst heq
          exact (cacheLookup_eq_none_iff.mp hl) hu
        have hu' : u ∈ ((w, f w) :: cache).map Prod.fst := by
          rw [List.map_cons]
          exact List.mem_cons_of_mem _ hu
        rw [List.count_cons]
        rw [(ih ((w, f w) :: cache)).1 hu']
        simp [hne.symm]
    · intro hu
      rw [memoRun]
      cases hl : cacheLookup cache w with
      | some v =>
        simp only [hl]
        have hwk : w ∈ cache.map Prod.fst := by
          by_contra hw
          rw [cacheLookup_eq_none_iff.mpr hw] at hl
          cases hl
        have hne : u ≠ w := fun heq => hu (heq ▸ hwk)
        rw [(ih cache).2 hu]
        simp [List.mem_cons, hne]
      | none =>
        simp only [hl]
        by_cases heq : u = w
        · subst heq
          have hu' : u ∈ ((u, f u) :: cache).map Prod.fst := by
            rw [List.map_cons]
            exact List.mem_cons_self _ _
          rw [List.count_cons]
          rw [(ih ((u, f u) :: cache)).1 hu']
          simp
        · have hu' : u ∉ ((w, f w) :: cache).map Prod.fst := by
            rw [List.map_cons]
            intro hc
            rcases List.mem_cons.mp hc with h | h
            · exact heq h
            · exact hu h
          rw [List.count_cons]
          rw [(ih ((w, f w) :: cache)).2 hu']
          simp [List.mem_cons, heq, Ne.symm heq]

/-- C3: over the engine's lifetime (the concatenation of all batches'
requests), the memoized resolver invokes the underlying platform resolver
exactly once for a URL that is ever requested and zero times otherwise;
every response equals the catch-wrapped resolver value for its URL, so
both success and null are served from the cache permanently; and a
resolver that throws on a URL yields the null value for it. -/
theorem resolver_memoized (raw : String → Except String (Option String))
    (requests : List String) (u : String) :
    ((memoRun (wrapCatch raw) [] requests).2.2).count u
        = (if u ∈ requests then 1 else 0) ∧
      (memoRun (wrapCatch raw) [] requests).1 = requests.map (wrapCatch raw) ∧
      (match raw u with
        | Except.ok v => wrapCatch raw u = v
        | Except.error _ => wrapCatch raw u = none) := by
  refine ⟨?_, ?_, ?_⟩
  · exact (memoRun_inv_count (wrapCatch raw) requests u []).2 (by simp)
  · exact memoRun_responses (wrapCatch raw) requests [] (by simp)
  · cases hr : raw u <;> simp [wrapCatch, hr]

end ExtensionsService
